import Mathlib

/-!
# Transcription Assistant — verification of the sequence-detection and merge claims

This file embeds the transcription-file handling of the Transcription Assistant
frontend (`main.ts`: `sortTranscriptionFiles`, `extractSequenceNumber`,
`moveFileUp`, `moveFileDown`) as executable Lean definitions, together with a
model of the merge pipeline of the Tauri backend (`merger.rs`, not part of the
available sources) built from the design document, and proves or refutes the
stated properties of the sequence detector, the offset accumulator and the
merge scenario.

Conventions: JavaScript strings are modelled as Lean `String`/`List Char`
(all inputs of interest lie in the Basic Multilingual Plane, where the two
agree); JavaScript `number` values produced by `parseInt` on digit runs are
modelled as `Nat`; the `Array.prototype.sort` call with a consistent
comparator is modelled as the stable `List.insertionSort` with the relation
"comparator result ≤ 0".
-/

namespace TranscriptionAssistant

/-- Value of an ASCII digit character. -/
def digitVal (c : Char) : Nat := c.toNat - 48

/-- `parseInt(s, 10)` on a run of ASCII digits. -/
def digitsToNat (l : List Char) : Nat := l.foldl (fun a c => a * 10 + digitVal c) 0

/-- `a.split(/[\\/]/).pop() || ''` from `sortTranscriptionFiles`: the suffix of
the path after the last `/` or `\` (the whole string when no separator occurs,
the empty string when the path ends in a separator — exactly what the
split/pop pair yields). -/
def basename (path : String) : String :=
  ⟨(path.data.reverse.takeWhile (fun c => ¬ (c = '/' ∨ c = '\\'))).reverse⟩

/-- `filename.replace(/\.[^.]*$/, '')` from `extractSequenceNumber`: the
regex matches the last dot together with the (dot-free) tail after it, so the
replacement drops everything from the last dot on; a dot-free name is kept
unchanged. -/
def stripExt (l : List Char) : List Char :=
  if l.contains '.' then ((l.reverse.dropWhile (fun c => c ≠ '.')).drop 1).reverse else l

/-- The name the extraction patterns run on: the filename without its
extension. -/
def nameNoExt (filename : String) : List Char := stripExt filename.data

/-- The maximal run of digits at the end of the name.  The JavaScript regex
`/(\d+)$/` captures exactly this run: the leftmost position from which `\d+$`
matches is the start of the maximal trailing digit run. -/
def trailingRun (n : List Char) : List Char := (n.reverse.takeWhile Char.isDigit).reverse

/-- The part of the name before its maximal trailing digit run. -/
def beforeTrailingRun (n : List Char) : List Char :=
  (n.reverse.dropWhile Char.isDigit).reverse

/-- Pattern 1 of `extractSequenceNumber`: `/(\d+)$/` — digits at the very end
of the name. -/
def pattern1 (n : List Char) : Option Nat :=
  if trailingRun n = [] then none else some (digitsToNat (trailingRun n))

/-- The separator class `[_\-\s]` of patterns 2 and 3. -/
def isSepChar (c : Char) : Bool := c = '_' || c = '-' || c.isWhitespace

/-- Pattern 2 of `extractSequenceNumber`: `/[_\-\s](\d+)$/`.  The regex
matches iff the name ends in a digit run whose preceding character is a
separator, and since that preceding character is not a digit the captured
group is again the maximal trailing digit run. -/
def pattern2 (n : List Char) : Option Nat :=
  if trailingRun n = [] then none
  else
    match (beforeTrailingRun n).getLast? with
    | some c => if isSepChar c then some (digitsToNat (trailingRun n)) else none
    | none => none

/-- The keyword alternatives of pattern 3, in lower case. -/
def keywords : List (List Char) :=
  ["part".data, "часть".data, "segment".data, "сегмент".data,
   "file".data, "файл".data, "chapter".data, "глава".data]

/-- Case folding as performed by the `/i` regex flag on the alphabets the
keywords use: ASCII letters and the Russian alphabet (`А`–`Я` and `Ё`). -/
def toLowerRu (c : Char) : Char :=
  if 'A' ≤ c ∧ c ≤ 'Z' then Char.ofNat (c.toNat + 32)
  else if 'А' ≤ c ∧ c ≤ 'Я' then Char.ofNat (c.toNat + 32)
  else if c = 'Ё' then 'ё'
  else c

/-- Pattern 3 of `extractSequenceNumber`:
`/(?:part|часть|segment|сегмент|file|файл|chapter|глава)[_\-\s]*(\d+)$/i`.
The regex matches iff the name ends in a digit run preceded by zero or more
separators preceded by one of the keywords; stripping the separator run and
testing the keyword as a (case-folded) suffix is equivalent, because the
keywords contain no separator characters and no digits.  The captured group
is again the maximal trailing digit run. -/
def pattern3 (n : List Char) : Option Nat :=
  if trailingRun n = [] then none
  else
    let pre := ((beforeTrailingRun n).reverse.dropWhile isSepChar).reverse
    if keywords.any (fun kw => kw.isSuffixOf (pre.map toLowerRu)) then
      some (digitsToNat (trailingRun n))
    else none

/-- The first maximal digit run occurring anywhere in the name; the
JavaScript regex `/(\d+)/` captures exactly this (leftmost match, greedy). -/
def firstRun (n : List Char) : List Char :=
  (n.dropWhile (fun c => !c.isDigit)).takeWhile Char.isDigit

/-- Pattern 4 of `extractSequenceNumber`: `/(\d+)/` — the first number found
anywhere in the name. -/
def pattern4 (n : List Char) : Option Nat :=
  if firstRun n = [] then none else some (digitsToNat (firstRun n))

/-- `extractSequenceNumber` from `main.ts`: strip the extension, then try the
four patterns in order, returning the first captured number, or `null`
(modelled as `none`) when no pattern matches. -/
def extractSequenceNumber (filename : String) : Option Nat :=
  let n := nameNoExt filename
  match pattern1 n with
  | some v => some v
  | none =>
    match pattern2 n with
    | some v => some v
    | none =>
      match pattern3 n with
      | some v => some v
      | none => pattern4 n

/-- The simplified extractor of the refinement claim: only pattern 1
(trailing digits) and pattern 4 (first digit run anywhere) are tried. -/
def extractSequenceNumberSimple (filename : String) : Option Nat :=
  let n := nameNoExt filename
  match pattern1 n with
  | some v => some v
  | none => pattern4 n

/-- Token stream of a string for locale-aware numeric comparison: a maximal
digit run becomes a number token `(0, value)`, any other character the token
`(1, codepoint)`.  The accumulator carries the value of the digit run being
read. -/
def natTokensAux : Option Nat → List Char → List (Nat × Nat)
  | some n, [] => [(0, n)]
  | none, [] => []
  | acc, c :: cs =>
    if c.isDigit then natTokensAux (some ((acc.getD 0) * 10 + digitVal c)) cs
    else
      match acc with
      | some n => (0, n) :: (1, c.toNat) :: natTokensAux none cs
      | none => (1, c.toNat) :: natTokensAux none cs

/-- Token stream of a string. -/
def natTokens (s : String) : List (Nat × Nat) := natTokensAux none s.data

/-- Lexicographic three-way comparison of token streams, as a sign
(`-1`/`0`/`1`), pairs compared componentwise. -/
def lexCmpInt : List (Nat × Nat) → List (Nat × Nat) → Int
  | [], [] => 0
  | [], _ :: _ => -1
  | _ :: _, [] => 1
  | p :: ps, q :: qs =>
    if p.1 < q.1 then -1
    else if q.1 < p.1 then 1
    else if p.2 < q.2 then -1
    else if q.2 < p.2 then 1
    else lexCmpInt ps qs

/-- Model of `fileA.localeCompare(fileB, 'ru', { numeric: true })`: digit
runs are compared by numeric value, other characters by codepoint, number
tokens ordering before character tokens.  (ICU collation details that never
arise on the filenames of interest — punctuation weighting, case tertiary
weights — are not modelled.) -/
def localeCompare (a b : String) : Int := lexCmpInt (natTokens a) (natTokens b)

/-- The comparator closure passed to `sort` in `sortTranscriptionFiles`:
compare extracted sequence numbers when both are present, order a keyed file
before an unkeyed one, and fall back to locale comparison of the basenames
when neither has a key. -/
def compareFiles (a b : String) : Int :=
  let fileA := basename a
  let fileB := basename b
  match extractSequenceNumber fileA, extractSequenceNumber fileB with
  | some na, some nb => (na : Int) - (nb : Int)
  | some _, none => -1
  | none, some _ => 1
  | none, none => localeCompare fileA fileB

/-- The "should come no later than" relation induced by the comparator. -/
def fileLe (a b : String) : Prop := compareFiles a b ≤ 0

instance : DecidableRel fileLe := fun a b => inferInstanceAs (Decidable (compareFiles a b ≤ 0))

/-- `sortTranscriptionFiles` from `main.ts`: `filePaths.sort(comparator)`.
`Array.prototype.sort` with a consistent comparator produces the stable sort
by the comparator; `List.insertionSort` is that stable sort. -/
def sortTranscriptionFiles (l : List String) : List String := l.insertionSort fileLe

/-- `moveFileUp` from `main.ts`: guarded by `index > 0`, remove the element at
`index` and re-insert it at `index - 1` (the two `splice` calls).  For an
in-range index this is exactly the code's behaviour; an out-of-range index
cannot arise from the UI (the buttons are created with list positions) and
is modelled as a no-op. -/
def moveFileUp (l : List String) (index : Nat) : List String :=
  if 0 < index then
    match l.get? index with
    | some file => (l.eraseIdx index).insertIdx (index - 1) file
    | none => l
  else l

/-- `moveFileDown` from `main.ts`: guarded by `index < length - 1`, remove the
element at `index` and re-insert it at `index + 1` (the two `splice` calls). -/
def moveFileDown (l : List String) (index : Nat) : List String :=
  if h : index + 1 < l.length then
    (l.eraseIdx index).insertIdx (index + 1) (l.get ⟨index, by omega⟩)
  else l

/-- Modelled from the spec: the running-sum loop of the Offset Accumulator of
the merge engine (the engine itself lives in the Tauri backend, `merger.rs`,
which is not among the available sources).  Design §4.4: "produce a per-file
absolute offset = running sum of all prior files' resolved durations, in
sequence order, file 0 having offset 0", in integer milliseconds.  The
accumulator argument carries the running sum. -/
def accumulateOffsetsFrom (acc : Nat) : List Nat → List Nat
  | [] => []
  | d :: ds => acc :: accumulateOffsetsFrom (acc + d) ds

/-- Modelled from the spec: the Offset Accumulator (design §4.4) applied to
the resolved durations in sequence order. -/
def accumulateOffsets (durations : List Nat) : List Nat := accumulateOffsetsFrom 0 durations

/-- Modelled from the spec: a ContentBlock of an SRT file (design §3) — start
and end time in milliseconds and the associated text. -/
structure SrtBlock where
  start : Nat
  stop : Nat
  text : String
  deriving DecidableEq, Repr

/-- Modelled from the spec: an SRT time field `HH:MM:SS,mmm` (design §4.1,
SRT-style grammar), in milliseconds. -/
def parseSrtTime : List Char → Option Nat
  | [h1, h2, ':', m1, m2, ':', s1, s2, ',', x1, x2, x3] =>
    if [h1, h2, m1, m2, s1, s2, x1, x2, x3].all Char.isDigit then
      some ((digitVal h1 * 10 + digitVal h2) * 3600000 +
        (digitVal m1 * 10 + digitVal m2) * 60000 +
        (digitVal s1 * 10 + digitVal s2) * 1000 +
        digitVal x1 * 100 + digitVal x2 * 10 + digitVal x3)
    else none
  | _ => none

/-- Modelled from the spec: an SRT timestamp line
`HH:MM:SS,mmm --> HH:MM:SS,mmm` (design §4.1). -/
def parseSrtTimestampLine (line : List Char) : Option (Nat × Nat) :=
  if line.length = 29 ∧ (line.drop 12).take 5 = [' ', '-', '-', '>', ' '] then
    match parseSrtTime (line.take 12), parseSrtTime (line.drop 17) with
    | some s, some e => some (s, e)
    | _, _ => none
  else none

/-- Split a character stream into its lines at `\n`. -/
def splitLinesAux (cur : List Char) : List Char → List (List Char)
  | [] => [cur.reverse]
  | c :: cs => if c = '\n' then cur.reverse :: splitLinesAux [] cs else splitLinesAux (c :: cur) cs

/-- The lines of a file's content. -/
def splitLines (l : List Char) : List (List Char) := splitLinesAux [] l

/-- Join text lines back with `\n`. -/
def joinLines (ls : List (List Char)) : String := ⟨List.intercalate ['\n'] ls⟩

/-- Close the block currently being assembled (start, end, reversed text
lines), if any. -/
def closeBlock : Option (Nat × Nat × List (List Char)) → List SrtBlock
  | some (s, e, acc) => [⟨s, e, joinLines acc.reverse⟩]
  | none => []

/-- Modelled from the spec: the SRT block reader of the Timestamp Grammar
Parser (design §4.1).  A timestamp line opens a block; subsequent non-blank
lines are that block's text; index lines and stray text outside a block are
not timestamp material and carry no block (blocks are separated by blank
lines in the SRT grammar). -/
def parseSrtAux : Option (Nat × Nat × List (List Char)) → List (List Char) → List SrtBlock
  | cur, [] => closeBlock cur
  | cur, line :: rest =>
    match parseSrtTimestampLine line with
    | some (s, e) => closeBlock cur ++ parseSrtAux (some (s, e, [])) rest
    | none =>
      if line = [] then closeBlock cur ++ parseSrtAux none rest
      else
        match cur with
        | some (s, e, acc) => parseSrtAux (some (s, e, line :: acc)) rest
        | none => parseSrtAux none rest

/-- Modelled from the spec: parse an SRT file's content into its ContentBlocks. -/
def parseSrt (content : String) : List SrtBlock := parseSrtAux none (splitLines content.data)

/-- Modelled from the spec: the Duration Resolver (design §4.3) — a supplied
hint always wins; otherwise the maximum end time among the file's timestamp
tokens (every SRT token carries an end time, so the maximum-start and zero
fallbacks of §4.3 coincide with the empty-file case). -/
def resolveDuration (hint : Option Nat) (blocks : List SrtBlock) : Nat :=
  match hint with
  | some h => h
  | none => (blocks.map SrtBlock.stop).foldr Nat.max 0

/-- Modelled from the spec: the Merge Assembler's offsetting step (design
§4.5) — absolute time = local time + file offset. -/
def shiftBlock (off : Nat) (b : SrtBlock) : SrtBlock := ⟨b.start + off, b.stop + off, b.text⟩

/-- Content of a named file in the input set. -/
def lookupContent (name : String) (files : List (String × String)) : String :=
  match files.find? (fun p => p.1 == name) with
  | some p => p.2
  | none => ""

/-- Modelled from the spec: the merge pipeline for SRT input with no duration
hints — order the filenames with the frontend's sequence detector, parse each
file, resolve durations, accumulate offsets and emit every file's blocks
shifted to the global timeline, in file-then-local order (design §4.2–§4.5). -/
def detectAndMergeSrt (files : List (String × String)) : List SrtBlock :=
  let ordered := sortTranscriptionFiles (files.map Prod.fst)
  let contents := ordered.map (fun name => parseSrt (lookupContent name files))
  let durations := contents.map (resolveDuration none)
  let offsets := accumulateOffsets durations
  ((contents.zip offsets).map (fun p => p.1.map (shiftBlock p.2))).flatten

/-! ## Properties of the comparator -/

theorem lexCmpInt_swap : ∀ a b, lexCmpInt a b = - lexCmpInt b a := by
  intro a
  induction a with
  | nil => intro b; cases b <;> rfl
  | cons p ps ih =>
    intro b
    cases b with
    | nil => rfl
    | cons q qs =>
      simp only [lexCmpInt]
      split_ifs <;> first
        | omega
        | exact ih qs

theorem lexCmpInt_trans :
    ∀ a b c, lexCmpInt a b ≤ 0 → lexCmpInt b c ≤ 0 → lexCmpInt a c ≤ 0 := by
  intro a
  induction a with
  | nil =>
    intro b c _ _
    cases c <;> simp [lexCmpInt]
  | cons p ps ih =>
    intro b c h1 h2
    cases b with
    | nil => simp [lexCmpInt] at h1
    | cons q qs =>
      cases c with
      | nil => simp [lexCmpInt] at h2
      | cons r rs =>
        simp only [lexCmpInt] at h1 h2 ⊢
        split_ifs at h1 h2 ⊢ <;> first
          | omega
          | exact ih qs rs h1 h2

theorem localeCompare_trans {a b c : String}
    (h1 : localeCompare a b ≤ 0) (h2 : localeCompare b c ≤ 0) : localeCompare a c ≤ 0 :=
  lexCmpInt_trans _ _ _ h1 h2

theorem localeCompare_total (a b : String) : localeCompare a b ≤ 0 ∨ localeCompare b a ≤ 0 := by
  unfold localeCompare
  rw [lexCmpInt_swap]
  omega

instance : IsTrans String fileLe := by
  constructor
  intro a b c h1 h2
  unfold fileLe compareFiles at h1 h2 ⊢
  rcases ha : extractSequenceNumber (basename a) with _ | na <;>
    rcases hb : extractSequenceNumber (basename b) with _ | nb <;>
      rcases hc : extractSequenceNumber (basename c) with _ | nc <;>
        simp only [ha, hb, hc] at h1 h2 ⊢ <;>
          first
            | omega
            | exact localeCompare_trans h1 h2

instance : IsTotal String fileLe := by
  constructor
  intro a b
  unfold fileLe compareFiles
  rcases ha : extractSequenceNumber (basename a) with _ | na <;>
    rcases hb : extractSequenceNumber (basename b) with _ | nb <;>
      simp only [ha, hb] <;>
        first
          | omega
          | exact localeCompare_total _ _

/-! ## Claim theorems: the extraction patterns -/

theorem firstRun_ne_nil {n : List Char} (h : ∃ c ∈ n, c.isDigit) : firstRun n ≠ [] := by
  induction n with
  | nil => simp at h
  | cons c cs ih =>
    by_cases hc : c.isDigit
    · simp [firstRun, hc]
    · obtain ⟨d, hd, hdig⟩ := h
      rcases List.mem_cons.mp hd with rfl | hd
      · exact absurd hdig hc
      · have hcs : firstRun cs ≠ [] := ih ⟨d, hd, hdig⟩
        simpa [firstRun, hc] using hcs

/-- C9: `extractSequenceNumber` is extensionally equal to the two-pattern
simplification — whenever pattern 2 or pattern 3 matches, the name ends in a
digit run, so pattern 1 already matched and captured the same maximal
trailing run; hence patterns 2 and 3 never decide the key. -/
theorem extractSequenceNumber_eq_simple :
    ∀ filename, extractSequenceNumber filename = extractSequenceNumberSimple filename := by
  intro f
  unfold extractSequenceNumber extractSequenceNumberSimple
  by_cases h : trailingRun (nameNoExt f) = []
  · simp [pattern1, pattern2, pattern3, h]
  · simp [pattern1, h]

/-- C8: a name whose extension-stripped form contains a digit always yields a
key, and when the name has no trailing digit run the key is the value of the
first digit run anywhere in the name (pattern 4). -/
theorem extract_total_on_digits (f : String) (hd : ∃ c ∈ nameNoExt f, c.isDigit) :
    (∃ n, extractSequenceNumber f = some n) ∧
    (trailingRun (nameNoExt f) = [] →
      extractSequenceNumber f = some (digitsToNat (firstRun (nameNoExt f)))) := by
  have h4 : pattern4 (nameNoExt f) = some (digitsToNat (firstRun (nameNoExt f))) := by
    unfold pattern4
    rw [if_neg (firstRun_ne_nil hd)]
  have key : trailingRun (nameNoExt f) = [] →
      extractSequenceNumber f = some (digitsToNat (firstRun (nameNoExt f))) := by
    intro h
    unfold extractSequenceNumber
    simp [pattern1, pattern2, pattern3, h, h4]
  refine ⟨?_, key⟩
  by_cases h : trailingRun (nameNoExt f) = []
  · exact ⟨_, key h⟩
  · refine ⟨digitsToNat (trailingRun (nameNoExt f)), ?_⟩
    unfold extractSequenceNumber
    simp [pattern1, h]

theorem extract_total_on_digits_witness :
    (∃ c ∈ nameNoExt "2023_recording.txt", c.isDigit) ∧
    ((∃ n, extractSequenceNumber "2023_recording.txt" = some n) ∧
      (trailingRun (nameNoExt "2023_recording.txt") = [] →
        extractSequenceNumber "2023_recording.txt" =
          some (digitsToNat (firstRun (nameNoExt "2023_recording.txt"))))) ∧
    extractSequenceNumber "2023_recording.txt" = some 2023 :=
  ⟨by decide, extract_total_on_digits _ (by decide), by decide⟩

/-! ## Claim theorems: the sequence detector -/

/-- Two sorted lists that are permutations of each other coincide, provided
the order relation is antisymmetric on the elements actually present. -/
theorem eq_of_perm_of_pairwise_of_antisymm {α : Type} {r : α → α → Prop} :
    ∀ {l₁ l₂ : List α}, l₁.Perm l₂ → l₁.Pairwise r → l₂.Pairwise r →
      (∀ a ∈ l₁, ∀ b ∈ l₁, r a b → r b a → a = b) → l₁ = l₂ := by
  intro l₁
  induction l₁ with
  | nil =>
    intro l₂ hp _ _ _
    exact hp.nil_eq
  | cons a t ih =>
    intro l₂ hp hs1 hs2 hanti
    have ha2 : a ∈ l₂ := hp.mem_iff.mp (List.mem_cons_self a t)
    cases l₂ with
    | nil => simp at ha2
    | cons b t₂ =>
      by_cases hab : a = b
      · subst hab
        have ht : t = t₂ :=
          ih hp.cons_inv hs1.of_cons hs2.of_cons
            (fun x hx y hy => hanti x (List.mem_cons_of_mem _ hx) y (List.mem_cons_of_mem _ hy))
        rw [ht]
      · have ha : a ∈ t₂ := by
          rcases List.mem_cons.mp ha2 with h | h
          · exact absurd h hab
          · exact h
        have hb1 : b ∈ a :: t := hp.mem_iff.mpr (List.mem_cons_self b t₂)
        have hb : b ∈ t := by
          rcases List.mem_cons.mp hb1 with h | h
          · exact absurd h.symm hab
          · exact h
        have hrab : r a b := List.rel_of_pairwise_cons hs1 hb
        have hrba : r b a := List.rel_of_pairwise_cons hs2 ha
        exact absurd (hanti a (List.mem_cons_self a t) b (List.mem_cons_of_mem _ hb) hrab hrba) hab

/-- C1 counterexample: two distinct files resolving to the same sequence key
(`a_1.txt` and `b_1.txt` both key `1`) do not abort detection — the sort
returns an ordered list containing both; `sortTranscriptionFiles` has no
error outcome at all. -/
theorem ties_counterexample :
    extractSequenceNumber (basename "a_1.txt") = some 1 ∧
    extractSequenceNumber (basename "b_1.txt") = some 1 ∧
    ("a_1.txt" : String) ≠ "b_1.txt" ∧
    sortTranscriptionFiles ["a_1.txt", "b_1.txt"] = ["a_1.txt", "b_1.txt"] := by
  decide

/-- C1 (amended): ties are not fatal — detection always returns a permutation
of its input, and a pair of files with equal keys is returned in its input
order (the comparator yields `0` and the sort is stable); detection has no
fatal condition. -/
theorem ties_not_fatal (l : List String) (a b : String) (k : Nat)
    (ha : extractSequenceNumber (basename a) = some k)
    (hb : extractSequenceNumber (basename b) = some k) :
    (sortTranscriptionFiles l).Perm l ∧ sortTranscriptionFiles [a, b] = [a, b] := by
  refine ⟨List.perm_insertionSort fileLe l, ?_⟩
  have hle : fileLe a b := by
    unfold fileLe compareFiles
    simp only [ha, hb]
    omega
  unfold sortTranscriptionFiles
  simp [List.orderedInsert, hle]

theorem ties_not_fatal_witness :
    extractSequenceNumber (basename "a_1.txt") = some 1 ∧
    extractSequenceNumber (basename "b_1.txt") = some 1 ∧
    ((sortTranscriptionFiles ["c.txt", "a_1.txt"]).Perm ["c.txt", "a_1.txt"] ∧
      sortTranscriptionFiles ["a_1.txt", "b_1.txt"] = ["a_1.txt", "b_1.txt"]) :=
  ⟨by decide, by decide,
    ties_not_fatal ["c.txt", "a_1.txt"] "a_1.txt" "b_1.txt" 1 (by decide) (by decide)⟩

/-- C2 counterexample: on `["a_2.txt", "b_1.txt", "x.txt"]` no extraction rule
matches all three filenames (`x.txt` yields no key), yet the numeric rule —
matching only the first two — determines their order: the code returns
`b_1.txt` before `a_2.txt`, while the locale fallback mandated by the claim
for this input orders `a_2.txt` first. -/
theorem priority_all_files_counterexample :
    extractSequenceNumber (basename "x.txt") = none ∧
    extractSequenceNumber (basename "a_2.txt") = some 2 ∧
    extractSequenceNumber (basename "b_1.txt") = some 1 ∧
    sortTranscriptionFiles ["a_2.txt", "b_1.txt", "x.txt"] = ["b_1.txt", "a_2.txt", "x.txt"] ∧
    localeCompare (basename "a_2.txt") (basename "b_1.txt") < 0 := by
  decide

/-- C2 (amended): the matching rules are evaluated in strict priority order
per file — each file's key is the capture of the first pattern matching that
file's own name, with no all-files precondition — and the returned order is
the stable sort of the input by the pairwise comparator over these per-file
keys. -/
theorem per_file_priority (s : String) (l : List String) :
    extractSequenceNumber s =
      ((pattern1 (nameNoExt s)).or ((pattern2 (nameNoExt s)).or
        ((pattern3 (nameNoExt s)).or (pattern4 (nameNoExt s))))) ∧
    (sortTranscriptionFiles l).Pairwise fileLe ∧
    (sortTranscriptionFiles l).Perm l := by
  refine ⟨?_, List.sorted_insertionSort fileLe l, List.perm_insertionSort fileLe l⟩
  unfold extractSequenceNumber
  cases h1 : pattern1 (nameNoExt s) <;>
    cases h2 : pattern2 (nameNoExt s) <;>
      cases h3 : pattern3 (nameNoExt s) <;>
        simp [h1, h2, h3, Option.or]

/-- C3 counterexample: `a_1.txt` and `b_1.txt` both match the trailing-digits
rule (both key `1`), the two input lists are permutations of each other, yet
detection returns different orders — discovery order leaks through on tied
keys, so the claimed unconditional permutation invariance fails. -/
theorem perm_invariance_counterexample :
    (["a_1.txt", "b_1.txt"] : List String).Perm ["b_1.txt", "a_1.txt"] ∧
    extractSequenceNumber (basename "a_1.txt") = some 1 ∧
    extractSequenceNumber (basename "b_1.txt") = some 1 ∧
    sortTranscriptionFiles ["a_1.txt", "b_1.txt"] ≠
      sortTranscriptionFiles ["b_1.txt", "a_1.txt"] := by
  decide

/-- C3 (amended): for filenames that all yield a sequence key, with distinct
files carrying distinct keys, detection is permutation invariant — a unique
total order independent of discovery order. -/
theorem sort_perm_invariant (l₁ l₂ : List String)
    (hp : l₁.Perm l₂)
    (hsome : ∀ f ∈ l₁, (extractSequenceNumber (basename f)).isSome = true)
    (hinj : ∀ a ∈ l₁, ∀ b ∈ l₁,
      extractSequenceNumber (basename a) = extractSequenceNumber (basename b) → a = b) :
    sortTranscriptionFiles l₁ = sortTranscriptionFiles l₂ := by
  apply eq_of_perm_of_pairwise_of_antisymm
  · exact (List.perm_insertionSort fileLe l₁).trans
      (hp.trans (List.perm_insertionSort fileLe l₂).symm)
  · exact List.sorted_insertionSort fileLe l₁
  · exact List.sorted_insertionSort fileLe l₂
  · intro a ha b hb hab hba
    have ha' : a ∈ l₁ := (List.perm_insertionSort fileLe l₁).mem_iff.mp ha
    have hb' : b ∈ l₁ := (List.perm_insertionSort fileLe l₁).mem_iff.mp hb
    obtain ⟨ka, hka⟩ := Option.isSome_iff_exists.mp (hsome a ha')
    obtain ⟨kb, hkb⟩ := Option.isSome_iff_exists.mp (hsome b hb')
    unfold fileLe compareFiles at hab hba
    simp only [hka, hkb] at hab hba
    have hk : ka = kb := by omega
    exact hinj a ha' b hb' (by rw [hka, hkb, hk])

theorem sort_perm_invariant_witness :
    (["a_2.txt", "a_1.txt"] : List String).Perm ["a_1.txt", "a_2.txt"] ∧
    sortTranscriptionFiles ["a_2.txt", "a_1.txt"] = sortTranscriptionFiles ["a_1.txt", "a_2.txt"] :=
  ⟨by decide, sort_perm_invariant _ _ (by decide) (by decide) (by decide)⟩

/-- C4 counterexample to the warning part: at the claim's own scenario input
(`x.txt`, `y.txt`, no numeric pattern) the entire detection result is the
bare reordered list — `sortTranscriptionFiles` returns `string[]` and nothing
else, so no low-confidence warning is produced anywhere. -/
theorem fallback_warning_counterexample :
    extractSequenceNumber (basename "x.txt") = none ∧
    extractSequenceNumber (basename "y.txt") = none ∧
    sortTranscriptionFiles ["x.txt", "y.txt"] = ["x.txt", "y.txt"] ∧
    sortTranscriptionFiles ["y.txt", "x.txt"] = ["x.txt", "y.txt"] := by
  decide

/-- C4 (amended): when no filename yields a key, detection does not fail — the
result is a permutation of the input ordered by the locale-aware,
numeric-segment-aware comparison of the basenames, and merging proceeds with
it; no warning or confidence indicator exists in the code. -/
theorem fallback_no_failure (l : List String)
    (h : ∀ f ∈ l, extractSequenceNumber (basename f) = none) :
    (sortTranscriptionFiles l).Perm l ∧
    (sortTranscriptionFiles l).Pairwise
      (fun a b => localeCompare (basename a) (basename b) ≤ 0) := by
  refine ⟨List.perm_insertionSort fileLe l, ?_⟩
  have hs : (sortTranscriptionFiles l).Pairwise fileLe := List.sorted_insertionSort fileLe l
  refine hs.imp_of_mem ?_
  intro a b ha hb hab
  have ha' : extractSequenceNumber (basename a) = none :=
    h a ((List.perm_insertionSort fileLe l).mem_iff.mp ha)
  have hb' : extractSequenceNumber (basename b) = none :=
    h b ((List.perm_insertionSort fileLe l).mem_iff.mp hb)
  unfold fileLe compareFiles at hab
  simpa only [ha', hb'] using hab

theorem fallback_no_failure_witness :
    (∀ f ∈ (["y.txt", "x.txt"] : List String), extractSequenceNumber (basename f) = none) ∧
    ((sortTranscriptionFiles ["y.txt", "x.txt"]).Perm ["y.txt", "x.txt"] ∧
      (sortTranscriptionFiles ["y.txt", "x.txt"]).Pairwise
        (fun a b => localeCompare (basename a) (basename b) ≤ 0)) :=
  ⟨by decide, fallback_no_failure _ (by decide)⟩

/-- C5: keys are compared numerically, not lexicographically — in any detected
order, a file whose key is `10` is placed strictly after a file whose key is
`2`. -/
theorem numeric_key_order (l : List String) (i j : Nat)
    (hi : i < (sortTranscriptionFiles l).length) (hj : j < (sortTranscriptionFiles l).length)
    (h10 : extractSequenceNumber (basename ((sortTranscriptionFiles l).get ⟨i, hi⟩)) = some 10)
    (h2 : extractSequenceNumber (basename ((sortTranscriptionFiles l).get ⟨j, hj⟩)) = some 2) :
    j < i := by
  by_contra hcon
  push_neg at hcon
  rcases Nat.lt_or_eq_of_le hcon with hlt | heq
  · have hs : (sortTranscriptionFiles l).Pairwise fileLe := List.sorted_insertionSort fileLe l
    have hij : fileLe ((sortTranscriptionFiles l).get ⟨i, hi⟩)
        ((sortTranscriptionFiles l).get ⟨j, hj⟩) :=
      List.pairwise_iff_get.mp hs ⟨i, hi⟩ ⟨j, hj⟩ hlt
    unfold fileLe compareFiles at hij
    simp only [h10, h2] at hij
    omega
  · have hfin : (⟨i, hi⟩ : Fin (sortTranscriptionFiles l).length) = ⟨j, hj⟩ := Fin.ext heq
    rw [hfin] at h10
    exact absurd (h10.symm.trans h2) (by decide)

theorem numeric_key_order_witness :
    (0 : Nat) < 1 ∧
    extractSequenceNumber (basename ((sortTranscriptionFiles ["10.txt", "2.txt"]).get
      ⟨1, by decide⟩)) = some 10 ∧
    extractSequenceNumber (basename ((sortTranscriptionFiles ["10.txt", "2.txt"]).get
      ⟨0, by decide⟩)) = some 2 :=
  ⟨numeric_key_order ["10.txt", "2.txt"] 1 0 (by decide) (by decide) (by decide) (by decide),
    by decide, by decide⟩

/-! ## Claim theorems: the list reordering buttons -/

theorem eraseIdx_insertIdx_swap_down {α : Type} :
    ∀ (l : List α) (j : Nat) (h : j + 1 < l.length),
      (l.eraseIdx j).insertIdx (j + 1) (l.get ⟨j, by omega⟩) =
        l.take j ++ l.get ⟨j + 1, h⟩ :: l.get ⟨j, by omega⟩ :: l.drop (j + 2) := by
  intro l
  induction l with
  | nil =>
    intro j h
    simp at h
  | cons a t ih =>
    intro j h
    cases j with
    | zero =>
      cases t with
      | nil => simp at h
      | cons b u => simp [List.insertIdx]
    | succ j' =>
      have h' : j' + 1 < t.length := by
        simp only [List.length_cons] at h
        omega
      simp only [List.eraseIdx_cons_succ, List.insertIdx_succ_cons, List.get_cons_succ,
        List.take_succ_cons, List.drop_succ_cons, List.cons_append, List.cons.injEq, true_and]
      exact ih j' h'

theorem eraseIdx_insertIdx_swap_up {α : Type} :
    ∀ (l : List α) (j : Nat) (h : j + 1 < l.length),
      (l.eraseIdx (j + 1)).insertIdx j (l.get ⟨j + 1, h⟩) =
        l.take j ++ l.get ⟨j + 1, h⟩ :: l.get ⟨j, by omega⟩ :: l.drop (j + 2) := by
  intro l
  induction l with
  | nil =>
    intro j h
    simp at h
  | cons a t ih =>
    intro j h
    cases j with
    | zero =>
      cases t with
      | nil => simp at h
      | cons b u => simp [List.insertIdx]
    | succ j' =>
      have h' : j' + 1 < t.length := by
        simp only [List.length_cons] at h
        omega
      simp only [List.eraseIdx_cons_succ, List.insertIdx_succ_cons, List.get_cons_succ,
        List.take_succ_cons, List.drop_succ_cons, List.cons_append, List.cons.injEq, true_and]
      exact ih j' h'

theorem take_get_drop_decomp {α : Type} :
    ∀ (l : List α) (j : Nat) (h : j + 1 < l.length),
      l = l.take j ++ l.get ⟨j, by omega⟩ :: l.get ⟨j + 1, h⟩ :: l.drop (j + 2) := by
  intro l
  induction l with
  | nil =>
    intro j h
    simp at h
  | cons a t ih =>
    intro j h
    cases j with
    | zero =>
      cases t with
      | nil => simp at h
      | cons b u => simp
    | succ j' =>
      have h' : j' + 1 < t.length := by
        simp only [List.length_cons] at h
        omega
      simp only [List.take_succ_cons, List.get_cons_succ, List.drop_succ_cons,
        List.cons_append, List.cons.injEq, true_and]
      exact ih j' h'

/-- C10: `moveFileUp` and `moveFileDown` are permutations of the list — length
and multiset of entries are preserved, index 0 (up) and the last index (down)
leave the list unchanged, and otherwise the chosen element is swapped with
its immediate neighbour. -/
theorem moveFile_correct (l : List String) (i : Nat) (h : i < l.length) :
    (moveFileUp l i).Perm l ∧
    (moveFileDown l i).Perm l ∧
    (moveFileUp l i).length = l.length ∧
    (moveFileDown l i).length = l.length ∧
    moveFileUp l 0 = l ∧
    moveFileDown l (l.length - 1) = l ∧
    (∀ hp : 0 < i, moveFileUp l i =
      l.take (i - 1) ++ l.get ⟨i, h⟩ :: l.get ⟨i - 1, by omega⟩ :: l.drop (i + 1)) ∧
    (∀ hd : i + 1 < l.length, moveFileDown l i =
      l.take i ++ l.get ⟨i + 1, hd⟩ :: l.get ⟨i, h⟩ :: l.drop (i + 2)) := by
  have hup0 : moveFileUp l 0 = l := by simp [moveFileUp]
  have hdownlast : moveFileDown l (l.length - 1) = l := by
    rw [moveFileDown, dif_neg (by omega)]
  have hupswap : ∀ hp : 0 < i, moveFileUp l i =
      l.take (i - 1) ++ l.get ⟨i, h⟩ :: l.get ⟨i - 1, by omega⟩ :: l.drop (i + 1) := by
    intro hp
    obtain ⟨j, rfl⟩ : ∃ j, i = j + 1 := ⟨i - 1, by omega⟩
    rw [moveFileUp, if_pos hp, List.get?_eq_get h]
    simp only [Nat.add_sub_cancel]
    exact eraseIdx_insertIdx_swap_up l j h
  have hdownswap : ∀ hd : i + 1 < l.length, moveFileDown l i =
      l.take i ++ l.get ⟨i + 1, hd⟩ :: l.get ⟨i, h⟩ :: l.drop (i + 2) := by
    intro hd
    rw [moveFileDown, dif_pos hd]
    exact eraseIdx_insertIdx_swap_down l i hd
  have hperm_up : (moveFileUp l i).Perm l := by
    rcases Nat.eq_zero_or_pos i with rfl | hp
    · rw [hup0]
    · obtain ⟨j, rfl⟩ : ∃ j, i = j + 1 := ⟨i - 1, by omega⟩
      rw [hupswap hp]
      simp only [Nat.add_sub_cancel]
      conv_rhs => rw [take_get_drop_decomp l j h]
      exact List.Perm.append_left _ (List.Perm.swap _ _ _)
  have hperm_down : (moveFileDown l i).Perm l := by
    by_cases hd : i + 1 < l.length
    · rw [hdownswap hd]
      conv_rhs => rw [take_get_drop_decomp l i hd]
      exact List.Perm.append_left _ (List.Perm.swap _ _ _)
    · rw [moveFileDown, dif_neg hd]
  exact ⟨hperm_up, hperm_down, hperm_up.length_eq, hperm_down.length_eq,
    hup0, hdownlast, hupswap, hdownswap⟩

theorem moveFile_correct_witness :
    1 < (["a", "b", "c"] : List String).length ∧
    ((moveFileUp ["a", "b", "c"] 1).Perm ["a", "b", "c"] ∧
      (moveFileDown ["a", "b", "c"] 1).Perm ["a", "b", "c"] ∧
      (moveFileUp ["a", "b", "c"] 1).length = (["a", "b", "c"] : List String).length ∧
      (moveFileDown ["a", "b", "c"] 1).length = (["a", "b", "c"] : List String).length ∧
      moveFileUp ["a", "b", "c"] 0 = ["a", "b", "c"] ∧
      moveFileDown ["a", "b", "c"] ((["a", "b", "c"] : List String).length - 1) =
        ["a", "b", "c"] ∧
      (∀ _hp : 0 < 1, moveFileUp ["a", "b", "c"] 1 =
        (["a", "b", "c"] : List String).take 0 ++
          (["a", "b", "c"] : List String).get ⟨1, by decide⟩ ::
            (["a", "b", "c"] : List String).get ⟨0, by decide⟩ ::
              (["a", "b", "c"] : List String).drop 2) ∧
      (∀ hd : 1 + 1 < (["a", "b", "c"] : List String).length,
        moveFileDown ["a", "b", "c"] 1 =
          (["a", "b", "c"] : List String).take 1 ++
            (["a", "b", "c"] : List String).get ⟨2, hd⟩ ::
              (["a", "b", "c"] : List String).get ⟨1, by decide⟩ ::
                (["a", "b", "c"] : List String).drop 3)) :=
  ⟨by decide, moveFile_correct ["a", "b", "c"] 1 (by decide)⟩

/-! ## Claim theorems: the offset accumulator and the merge scenario -/

theorem accumulateOffsetsFrom_length (acc : Nat) (ds : List Nat) :
    (accumulateOffsetsFrom acc ds).length = ds.length := by
  induction ds generalizing acc with
  | nil => rfl
  | cons d t ih => simp [accumulateOffsetsFrom, ih]

theorem accumulateOffsetsFrom_getD (acc : Nat) :
    ∀ (ds : List Nat) (i : Nat), i < ds.length →
      (accumulateOffsetsFrom acc ds).getD i 0 = acc + (ds.take i).sum := by
  intro ds
  induction ds generalizing acc with
  | nil =>
    intro i h
    simp at h
  | cons d t ih =>
    intro i h
    cases i with
    | zero => simp [accumulateOffsetsFrom]
    | succ i' =>
      simp only [accumulateOffsetsFrom, List.getD_cons_succ, List.take_succ_cons, List.sum_cons]
      rw [ih (acc + d) i' (by simpa using h)]
      omega

/-- C6: the Offset Accumulator's result has one offset per file, the first
offset is zero and every later offset is the previous offset plus the
previous file's duration — the running sum of all prior durations. -/
theorem offsets_recurrence (ds : List Nat) (i : Nat) (h : i < ds.length) :
    (accumulateOffsets ds).length = ds.length ∧
    (accumulateOffsets ds).getD 0 0 = 0 ∧
    (0 < i →
      (accumulateOffsets ds).getD i 0 =
        (accumulateOffsets ds).getD (i - 1) 0 + ds.getD (i - 1) 0) := by
  refine ⟨accumulateOffsetsFrom_length 0 ds, ?_, ?_⟩
  · cases ds with
    | nil => rfl
    | cons d t => rfl
  · intro hi
    obtain ⟨i', rfl⟩ : ∃ i', i = i' + 1 := ⟨i - 1, by omega⟩
    simp only [Nat.add_sub_cancel]
    rw [accumulateOffsets, accumulateOffsetsFrom_getD 0 ds (i' + 1) h,
      accumulateOffsetsFrom_getD 0 ds i' (by omega),
      List.sum_take_succ ds i' (by omega),
      List.getD_eq_getElem ds 0 (show i' < ds.length by omega)]
    omega

theorem offsets_recurrence_witness :
    1 < ([4000, 3000] : List Nat).length ∧
    ((accumulateOffsets [4000, 3000]).length = ([4000, 3000] : List Nat).length ∧
      (accumulateOffsets [4000, 3000]).getD 0 0 = 0 ∧
      (0 < 1 →
        (accumulateOffsets [4000, 3000]).getD 1 0 =
          (accumulateOffsets [4000, 3000]).getD 0 0 + ([4000, 3000] : List Nat).getD 0 0)) :=
  ⟨by decide, offsets_recurrence [4000, 3000] 1 (by decide)⟩

/-- C7: merging `a_1.srt` (one block 0→4 s "Hello") and `a_2.srt` (one block
0→3 s "World") with no duration hints yields "Hello" on absolute 0→4 s and
"World" on absolute 4→7 s. -/
theorem merge_two_srt_scenario :
    detectAndMergeSrt
      [("a_1.srt", "1\n00:00:00,000 --> 00:00:04,000\nHello\n"),
       ("a_2.srt", "1\n00:00:00,000 --> 00:00:03,000\nWorld\n")] =
      [⟨0, 4000, "Hello"⟩, ⟨4000, 7000, "World"⟩] := by
  decide

end TranscriptionAssistant
